import Mathlib

/-!
# Verification of the RMG core/edge reaction model (`source/rmg/model.py`)

A shallow embedding of the reaction-model module: the `CoreEdgeReactionModel`
container with its enlargement and validity-screening operations, the
temperature/pressure profile models, the `ReactionSystem`/`BatchReactor`
constructor, and the adaptive integration loop of `BatchReactor.simulate`.

Conventions of the embedding:
* Species are opaque hashable, comparable identities; we use `ℕ`.
* Reactions are identities carrying ordered reactant and product lists; Python
  compares reaction objects by identity, which the `id` field captures.
* Python floats are modelled as `ℚ`.  The only transcendental operation used
  by the module, `math.sqrt` (a Python standard-library function external to
  the repository), is passed in as a parameter `sqrtQ : ℚ → ℚ`; theorems that
  need its nonnegativity take it as a hypothesis.
* Reaction rates `rxn.getRate(T, P, conc)` are supplied by the external
  kinetics layer; at fixed conditions they are a function `rate : Reaction → ℚ`.
* A Python run-time exception (`ValueError` from `max([])`, `TypeError` from
  `float(None)`) is modelled by `none` in an `Option` result.
-/

namespace RMG

/-- Species are opaque, hashable, comparable identities (spec §3). -/
abbrev Species := ℕ

/-- A reaction: an opaque identity (`id`; Python compares reaction objects by
object identity) with ordered reactant and product species lists. -/
structure Reaction where
  id : ℕ
  reactants : List Species
  products : List Species
deriving DecidableEq, Repr

/-- Modelled from the spec: `Reaction.getStoichiometricCoefficient(species) -> int`
is supplied by the external kinetics layer (the repository's `reaction` module is
not under `src/`).  Spec §4.3 step 1 and §8: the entry is the net stoichiometric
coefficient, "sum of product coefficients - sum of reactant coefficients",
negative for net-consumed, positive for net-produced, zero if absent. -/
def Reaction.getStoichiometricCoefficient (rxn : Reaction) (s : Species) : ℤ :=
  (rxn.products.count s : ℤ) - (rxn.reactants.count s : ℤ)

/-- `ReactionModel`: a list of species and a list of reactions. -/
structure ReactionModel where
  species : List Species
  reactions : List Reaction
deriving DecidableEq, Repr

/-- `CoreEdgeReactionModel.__init__` defaults: `fluxTolerance = 1.0`,
`absoluteTolerance = 1e-8`, `relativeTolerance = 1e-4`. -/
structure CoreEdgeReactionModel where
  core : ReactionModel
  edge : ReactionModel
  fluxTolerance : ℚ := 1
  absoluteTolerance : ℚ := 1 / 100000000
  relativeTolerance : ℚ := 1 / 10000
deriving DecidableEq, Repr

/-- A freshly constructed `CoreEdgeReactionModel()`. -/
def emptyModel : CoreEdgeReactionModel :=
  { core := ⟨[], []⟩, edge := ⟨[], []⟩ }

/-- The `allCore` test of `addSpeciesToCore`/`enlarge`: every reactant and every
product of `rxn` is in the given core species list. -/
def allCore (coreSpecies : List Species) (rxn : Reaction) : Bool :=
  rxn.reactants.all (fun r => decide (r ∈ coreSpecies)) &&
  rxn.products.all (fun p => decide (p ∈ coreSpecies))

/-- `addReactionToCore(rxn)`: append to `core.reactions` and remove from
`edge.reactions` if present (`List.erase` is the identity when absent, matching
the guarded `remove`). -/
def addReactionToCore (m : CoreEdgeReactionModel) (rxn : Reaction) : CoreEdgeReactionModel :=
  { m with
    core := { m.core with reactions := m.core.reactions ++ [rxn] }
    edge := { m.edge with reactions := m.edge.reactions.erase rxn } }

/-- `addReactionToEdge(rxn)`: append to `edge.reactions`. -/
def addReactionToEdge (m : CoreEdgeReactionModel) (rxn : Reaction) : CoreEdgeReactionModel :=
  { m with edge := { m.edge with reactions := m.edge.reactions ++ [rxn] } }

/-- `addSpeciesToEdge(spec)`: append to `edge.species`. -/
def addSpeciesToEdge (m : CoreEdgeReactionModel) (spec : Species) : CoreEdgeReactionModel :=
  { m with edge := { m.edge with species := m.edge.species ++ [spec] } }

/-- `addSpeciesToCore(spec)`: append `spec` to `core.species`; if `spec` was in
`edge.species`, remove it there (`list.remove` drops the first occurrence), then
scan the edge reactions once, collecting those whose reactants and products are
all in the updated core species, and move each to the core. -/
def addSpeciesToCore (m : CoreEdgeReactionModel) (spec : Species) : CoreEdgeReactionModel :=
  if spec ∈ m.edge.species then
    (m.edge.reactions.filter (allCore (m.core.species ++ [spec]))).foldl
      addReactionToCore
      { m with core := { m.core with species := m.core.species ++ [spec] },
               edge := { m.edge with species := m.edge.species.erase spec } }
  else
    { m with core := { m.core with species := m.core.species ++ [spec] } }

/-- Body of the reaction loop in `enlarge`: add every referenced species not in
core or edge to the edge (the membership tests see the additions made for
earlier occurrences), then classify the reaction by the `allSpeciesInCore`
flag, which is evaluated against `core.species` (unchanged during the loop). -/
def enlargeStep (m : CoreEdgeReactionModel) (rxn : Reaction) : CoreEdgeReactionModel :=
  let m1 := (rxn.reactants ++ rxn.products).foldl
    (fun mm spec =>
      if spec ∈ mm.edge.species ∨ spec ∈ mm.core.species then mm
      else addSpeciesToEdge mm spec) m
  if allCore m1.core.species rxn then addReactionToCore m1 rxn
  else addReactionToEdge m1 rxn

/-- `enlarge(newSpecies)`: query the rate provider (`reaction.kineticsDatabase
.getReactions`, an external collaborator passed in as `getReactions`) for
unimolecular reactions of `newSpecies` and bimolecular reactions with every
*reactive* current core species; then `addSpeciesToCore(newSpecies)`; then
process each discovered reaction with `enlargeStep`. -/
def enlarge (getReactions : List Species → List Reaction) (reactive : Species → Bool)
    (m : CoreEdgeReactionModel) (newSpecies : Species) : CoreEdgeReactionModel :=
  let rxnList := getReactions [newSpecies] ++
    (m.core.species.filter reactive).foldl
      (fun acc cs => acc ++ getReactions [newSpecies, cs]) []
  let m1 := addSpeciesToCore m newSpecies
  rxnList.foldl enlargeStep m1

/-- Body of the seed loop in `initialize`: for one seed species, generate
reactions (only if the seed is reactive: unimolecular, plus bimolecular with
every species already in the core), add the seed to the core, then for each
discovered reaction add its unknown reactants/products to the edge and add the
reaction itself to the edge — unconditionally, with no core classification. -/
def initStep (getReactions : List Species → List Reaction) (reactive : Species → Bool)
    (m : CoreEdgeReactionModel) (species1 : Species) : CoreEdgeReactionModel :=
  let rxnList := if reactive species1 then
      getReactions [species1] ++
        m.core.species.foldl (fun acc s2 => acc ++ getReactions [species1, s2]) []
    else []
  let m1 := addSpeciesToCore m species1
  rxnList.foldl
    (fun mm rxn =>
      let mm1 := (rxn.reactants ++ rxn.products).foldl
        (fun a spec =>
          if spec ∈ a.edge.species ∨ spec ∈ a.core.species then a
          else addSpeciesToEdge a spec) mm
      addReactionToEdge mm1 rxn) m1

/-- `initialize(coreSpecies)` (named `initModel` here): process the seed species
in the caller-supplied order. -/
def initModel (getReactions : List Species → List Reaction) (reactive : Species → Bool)
    (m : CoreEdgeReactionModel) (coreSpecies : List Species) : CoreEdgeReactionModel :=
  coreSpecies.foldl (initStep getReactions reactive) m

/-! ## Flux-based validity screening (`CoreEdgeReactionModel.isValid`) -/

/-- The characteristic flux of `isValid`:
`fluxTolerance * sqrt(sum(flux**2 for flux in rxnFlux.values()))`.
`rxnFlux` is a dictionary keyed by reaction, so each distinct core reaction
contributes once — hence the `dedup`. -/
def charFlux (sqrtQ : ℚ → ℚ) (rate : Reaction → ℚ) (m : CoreEdgeReactionModel) : ℚ :=
  m.fluxTolerance * sqrtQ ((m.core.reactions.dedup.map (fun rxn => rate rxn ^ 2)).sum)

/-- The accumulated `specFlux[s]` of `isValid`: over every core reaction
occurrence, each reactant occurrence of `s` subtracts the reaction rate and
each product occurrence adds it. -/
def specFlux (rate : Reaction → ℚ) (m : CoreEdgeReactionModel) (s : Species) : ℚ :=
  (m.core.reactions.map
    (fun rxn => ((rxn.products.count s : ℚ) - (rxn.reactants.count s : ℚ)) * rate rxn)).sum

/-- `s` gets an entry in the `specFlux` dictionary iff it is an edge species
occurring as a reactant or product of some core reaction. -/
def touchedEdge (m : CoreEdgeReactionModel) (s : Species) : Bool :=
  decide (s ∈ m.edge.species) &&
  m.core.reactions.any (fun rxn => decide (s ∈ rxn.reactants) || decide (s ∈ rxn.products))

/-- The `(specFlux[x], x)` pairs of `isValid`; dictionary keys are unique
(`dedup`), and the enumeration order is immaterial because `pairMax` computes a
maximum of pairwise-distinct tuples. -/
def fluxEntries (rate : Reaction → ℚ) (m : CoreEdgeReactionModel) : List (ℚ × ℕ) :=
  (m.edge.species.dedup.filter (touchedEdge m)).map (fun s => (specFlux rate m s, s))

/-- One comparison step of Python's `max` over `(float, x)` tuples:
lexicographic, keeping the current maximum on ties. -/
def pmStep (a b : ℚ × ℕ) : ℚ × ℕ :=
  if a.1 < b.1 ∨ (a.1 = b.1 ∧ a.2 < b.2) then b else a

/-- Python's `max` over a list of `(float, x)` tuples: lexicographic maximum;
`none` models the `ValueError` raised on an empty sequence. -/
def pairMax : List (ℚ × ℕ) → Option (ℚ × ℕ)
  | [] => none
  | x :: xs => some (xs.foldl pmStep x)

/-- `CoreEdgeReactionModel.isValid(T, P, conc)`.  The conditions enter only
through `rxn.getRate(T, P, conc)`, abstracted as `rate`.  The function returns
a bare boolean: `False` when the maximum edge-species flux strictly exceeds the
characteristic flux, else `True`; `none` models the `ValueError` from
`max([...])` when no edge species received any flux. -/
def isValid (sqrtQ : ℚ → ℚ) (rate : Reaction → ℚ) (m : CoreEdgeReactionModel) :
    Option Bool :=
  match pairMax (fluxEntries rate m) with
  | none => none
  | some (maxSpecFlux, _maxSpec) =>
      if maxSpecFlux > charFlux sqrtQ rate m then some false else some true

/-- Follows the spec's words (§4.1 `isValid`), for comparison with the source's
`isValid`: "Model is invalid iff `maxFlux > charFlux`; on invalidity return
`(false, maxSpecies)`, else `(true, none)`"; "If no edge species has any flux,
the model is trivially valid." -/
def isValidSpecPair (sqrtQ : ℚ → ℚ) (rate : Reaction → ℚ) (m : CoreEdgeReactionModel) :
    Bool × Option Species :=
  match pairMax (fluxEntries rate m) with
  | none => (true, none)
  | some (maxFlux, maxSpecies) =>
      if maxFlux > charFlux sqrtQ rate m then (false, some maxSpecies) else (true, none)

/-! ## `BatchReactor.isModelValid` -/

/-- `getLists` species half: core species then edge species. -/
def speciesList (m : CoreEdgeReactionModel) : List Species :=
  m.core.species ++ m.edge.species

/-- `getLists` reaction half: core reactions then edge reactions. -/
def reactionList (m : CoreEdgeReactionModel) : List Reaction :=
  m.core.reactions ++ m.edge.reactions

/-- One row of `dNidt = stoichiometry · rxnRates` in `isModelValid`: the row of
species `s`, summed over ALL reactions (core then edge) of the stoichiometry
matrix built by `simulate`. -/
def modelFlux (rate : Reaction → ℚ) (m : CoreEdgeReactionModel) (s : Species) : ℚ :=
  ((reactionList m).map
    (fun rxn => (rxn.getStoichiometricCoefficient s : ℚ) * rate rxn)).sum

/-- The characteristic flux of `isModelValid`: the squared rates of the first
`len(core.reactions)` entries of the rate array, summed per occurrence (no
dictionary deduplication here, unlike `isValid`). -/
def charFluxBR (sqrtQ : ℚ → ℚ) (rate : Reaction → ℚ) (m : CoreEdgeReactionModel) : ℚ :=
  m.fluxTolerance * sqrtQ ((m.core.reactions.map (fun rxn => rate rxn ^ 2)).sum)

/-- The `(value, i + len(core.species))` pairs `isModelValid` maximises over:
the edge rows of `dNidt = stoichiometry · rxnRates`. -/
def modelEntries (rate : Reaction → ℚ) (m : CoreEdgeReactionModel) : List (ℚ × ℕ) :=
  m.edge.species.enum.map (fun p => (modelFlux rate m p.2, p.1 + m.core.species.length))

/-- `BatchReactor.isModelValid(model, P, V, T, Ni, stoichiometry, t)` with the
stoichiometry matrix as built by `simulate` and the rates abstracted as `rate`.
The species fluxes are the edge rows of the full `stoichiometry · rates`
product (over ALL reactions, core and edge); the maximum is taken over
`(value, i + len(core.species))` pairs and the offending species is looked up
in `speciesList`.  `none` models the `ValueError` on an empty edge. -/
def isModelValid (sqrtQ : ℚ → ℚ) (rate : Reaction → ℚ) (m : CoreEdgeReactionModel) :
    Option (Bool × Option Species) :=
  match pairMax (modelEntries rate m) with
  | none => none
  | some (maxSpeciesFlux, maxSpecies) =>
      if maxSpeciesFlux > charFluxBR sqrtQ rate m then
        some (false, some ((speciesList m).getD maxSpecies 0))
      else
        some (true, none)

/-! ## Profile models -/

/-- `TemperatureModel`: `type` starts `''`, `temperatures` starts `[]`. -/
structure TemperatureModel where
  type : String := ""
  temperatures : List (ℚ × ℚ) := []
deriving DecidableEq, Repr

def TemperatureModel.isIsothermal (tm : TemperatureModel) : Bool :=
  tm.type = "isothermal"

def TemperatureModel.setIsothermal (_tm : TemperatureModel) (temperature : ℚ) :
    TemperatureModel :=
  { type := "isothermal", temperatures := [(0, temperature)] }

/-- `getTemperature(time)`: `temperatures[0][1]` when isothermal, else `None`.
(The `isothermal`-with-empty-breakpoints state is unreachable through the
class's own methods, so the out-of-range index is not modelled separately.) -/
def TemperatureModel.getTemperature (tm : TemperatureModel) (_time : ℚ) : Option ℚ :=
  if tm.isIsothermal then some (tm.temperatures.getD 0 (0, 0)).2 else none

/-- `PressureModel`: `type` starts `''`, `pressures` starts `[]`. -/
structure PressureModel where
  type : String := ""
  pressures : List (ℚ × ℚ) := []
deriving DecidableEq, Repr

def PressureModel.isIsobaric (pm : PressureModel) : Bool :=
  pm.type = "isobaric"

def PressureModel.setIsobaric (_pm : PressureModel) (pressure : ℚ) : PressureModel :=
  { type := "isobaric", pressures := [(0, pressure)] }

/-- `getPressure(time)`: `pressures[0][1]` when isobaric, else `None`. -/
def PressureModel.getPressure (pm : PressureModel) (_time : ℚ) : Option ℚ :=
  if pm.isIsobaric then some (pm.pressures.getD 0 (0, 0)).2 else none

/-! ## `ReactionSystem` construction -/

/-- The volume model has no class of its own in the module; it is an opaque
object stored by the constructor. -/
abbrev VolumeModel := ℕ

/-- `InvalidReactionSystemException(label)`. -/
structure InvalidReactionSystemException where
  label : String
deriving DecidableEq, Repr

/-- A constructed `ReactionSystem` (also the state of a `BatchReactor`, whose
`__init__` merely delegates to `ReactionSystem.__init__`). -/
structure ReactionSystem where
  temperatureModel : Option TemperatureModel
  pressureModel : Option PressureModel
  volumeModel : Option VolumeModel
  initialConcentration : List (Species × ℚ)
deriving DecidableEq, Repr

/-- `ReactionSystem.__init__`: `setModels` raises
`InvalidReactionSystemException` iff all three models are non-`None`;
otherwise all three are stored as given, and `initialConcentration` defaults
to `{}` when `None`. -/
def ReactionSystem.construct (temperatureModel : Option TemperatureModel)
    (pressureModel : Option PressureModel) (volumeModel : Option VolumeModel)
    (initialConcentration : Option (List (Species × ℚ))) :
    Except InvalidReactionSystemException ReactionSystem :=
  if temperatureModel.isSome ∧ pressureModel.isSome ∧ volumeModel.isSome then
    .error ⟨"Attempted to specify temperature, pressure, and volume models; can only specify two of these at a time."⟩
  else
    .ok { temperatureModel := temperatureModel, pressureModel := pressureModel,
          volumeModel := volumeModel,
          initialConcentration := initialConcentration.getD [] }

/-- `BatchReactor.__init__` forwards its arguments unchanged to
`ReactionSystem.__init__`. -/
def BatchReactor.construct (temperatureModel : Option TemperatureModel)
    (pressureModel : Option PressureModel) (volumeModel : Option VolumeModel)
    (initialConcentration : Option (List (Species × ℚ))) :
    Except InvalidReactionSystemException ReactionSystem :=
  ReactionSystem.construct temperatureModel pressureModel volumeModel initialConcentration

/-! ## `BatchReactor.simulate` -/

/-- The reactor state vector `y = [P, V, T] ++ Ni` of `simulate`. -/
structure SimState where
  P : ℚ
  V : ℚ
  T : ℚ
  Ni : List ℚ
deriving DecidableEq, Repr

/-- The concentration dictionary `Ci[spec] = Ni[i] / V` of
`BatchReactor.getReactionRates`, built by enumerating `core.species` (for a
duplicated species the later assignment wins); species outside the dictionary
are mapped to `0` (their value is never consulted by the module itself). -/
def concOf (m : CoreEdgeReactionModel) (Ni : List ℚ) (V : ℚ) (s : Species) : ℚ :=
  match (m.core.species.enum.filter (fun p => decide (p.2 = s))).getLast? with
  | some p => Ni.getD p.1 0 / V
  | none => 0

/-- `BatchReactor.getReactionRates(P, V, T, Ni, model)` as a per-reaction rate
function: each reaction's `getRate(T, P, Ci)` with `Ci` as above.  `getRate`
itself is the external kinetics capability. -/
def ratesAt (getRate : Reaction → ℚ → ℚ → (Species → ℚ) → ℚ)
    (m : CoreEdgeReactionModel) (y : SimState) : Reaction → ℚ :=
  fun rxn => getRate rxn y.T y.P (concOf m y.Ni y.V)

/-- `y[3]`: the mole amount of the first (lead) core species. -/
def leadAmount (y : SimState) : ℚ :=
  y.Ni.getD 0 0

/-- The `while t0 < 1.0e0` loop of `simulate`.  The external stiff integrator
(`scipy.integrate.odeint`) is abstracted as
`integ : y → t0 → tf → (yFinal, achievedTime)` per spec §9
("`integrate(residual, y0, tSpan, tolerances) -> (yFinal, achievedTime)`").
Each iteration: integrate over `[t0, tf]`, take the last state; run
`isModelValid`; on invalidity return `(False, newSpecies)`; else if
`y[3] < 0.1 * y0[3]` return `(True, None)`; else continue with `t0 = tf`,
`tf = tcur * 1.1`.  On loop exit (`t0 ≥ 1`) return `(True, None)`.  `fuel`
bounds the number of iterations the embedding unfolds; exhaustion yields
`none` (no verdict), never a source behaviour. -/
def simulateLoop (sqrtQ : ℚ → ℚ) (getRate : Reaction → ℚ → ℚ → (Species → ℚ) → ℚ)
    (integ : SimState → ℚ → ℚ → SimState × ℚ) (m : CoreEdgeReactionModel)
    (y0 : SimState) : ℕ → ℚ → ℚ → SimState → Option (Bool × Option Species)
  | 0, _, _, _ => none
  | fuel + 1, t0, tf, y =>
    if t0 < 1 then
      let r := integ y t0 tf
      match isModelValid sqrtQ (ratesAt getRate m r.1) m with
      | none => none
      | some (valid, newSpecies) =>
        if valid = false then some (false, newSpecies)
        else if leadAmount r.1 < 1 / 10 * leadAmount y0 then some (true, none)
        else simulateLoop sqrtQ getRate integ m y0 fuel tf (r.2 * (11 / 10)) r.1
    else some (true, none)

/-- `BatchReactor.simulate(model)`: read `P` and `T` from the profile models at
time 0 (`float(None)` on an unset model is a `TypeError`, modelled by `none`),
fix `V = 1.0`, build `Ni` from `initialConcentration * V` (absent species start
at 0), run the seed validity check, and enter the loop at `t0 = 1e-20`,
`tf = 1e-20 * 1.1`, with `y0` the initial state. -/
def simulate (sqrtQ : ℚ → ℚ) (getRate : Reaction → ℚ → ℚ → (Species → ℚ) → ℚ)
    (integ : SimState → ℚ → ℚ → SimState × ℚ) (sys : ReactionSystem)
    (m : CoreEdgeReactionModel) (fuel : ℕ) : Option (Bool × Option Species) :=
  match sys.pressureModel, sys.temperatureModel with
  | some pm, some tm =>
    match pm.getPressure 0, tm.getTemperature 0 with
    | some P, some T =>
      let V : ℚ := 1
      let Ni := m.core.species.map (fun s =>
        match sys.initialConcentration.lookup s with
        | some c => c * V
        | none => 0)
      let y : SimState := ⟨P, V, T, Ni⟩
      match isModelValid sqrtQ (ratesAt getRate m y) m with
      | none => none
      | some (valid, newSpecies) =>
        if valid = false then some (false, newSpecies)
        else simulateLoop sqrtQ getRate integ m y fuel
          (1 / 10 ^ 20) ((1 / 10 ^ 20) * (11 / 10)) y
    | _, _ => none
  | _, _ => none

/-! ## Concrete instances used by counterexamples and witnesses -/

/-- Core `{A}`, edge `{B}`, one core reaction `A -> B`, one edge reaction
`A -> 2 B`. -/
def mC1 : CoreEdgeReactionModel :=
  { core := ⟨[0], [⟨1, [0], [1]⟩]⟩, edge := ⟨[1], [⟨2, [0], [1, 1]⟩]⟩ }

/-- Rate 10 for the core reaction (id 1), 100 for every other reaction. -/
def rateC1 : Reaction → ℚ := fun r => if r.id = 1 then 10 else 100

/-- A square root agreeing with the true square root at the only argument the
concrete scenarios produce (`sqrt 100 = 10`). -/
def sq100 : ℚ → ℚ := fun q => if q = 100 then 10 else 0

/-- Core `{A}` with reaction `A -> 2 B`, edge `{B}`. -/
def mC2a : CoreEdgeReactionModel :=
  { core := ⟨[0], [⟨1, [0], [1, 1]⟩]⟩, edge := ⟨[1], []⟩ }

/-- Core `{A}` with reaction `A -> 2 C`, edge `{C}`. -/
def mC2b : CoreEdgeReactionModel :=
  { core := ⟨[0], [⟨1, [0], [2, 2]⟩]⟩, edge := ⟨[2], []⟩ }

/-- Constant rate 10. -/
def rate10 : Reaction → ℚ := fun _ => 10

/-- A model whose edge is empty: core `{A}` with reaction `A -> A`. -/
def mC3 : CoreEdgeReactionModel :=
  { core := ⟨[0], [⟨1, [0], [0]⟩]⟩, edge := ⟨[], []⟩ }

/-- Core `{A}` with reaction `A -> B` of rate 10, edge `{B}`: edge flux 10 and
characteristic flux `sqrt(10^2) = 10` are exactly equal. -/
def mC5 : CoreEdgeReactionModel :=
  { core := ⟨[0], [⟨1, [0], [1]⟩]⟩, edge := ⟨[1], []⟩ }

/-- A rate provider that returns the isomerisation `B -> A` for the
unimolecular query on `B` (species 1) and nothing otherwise. -/
def provC4 : List Species → List Reaction :=
  fun l => if l = [1] then [⟨7, [1], [0]⟩] else []

/-- A rate provider that returns `A -> B` for the unimolecular query on `A`
(species 0) and nothing otherwise. -/
def provC4w : List Species → List Reaction :=
  fun l => if l = [0] then [⟨9, [0], [1]⟩] else []

/-- A deterministic rate provider that returns the same reaction `A -> B` for
the unimolecular queries on `A` and on `B`. -/
def provC4b : List Species → List Reaction :=
  fun l => if l = [0] ∨ l = [1] then [⟨9, [0], [1]⟩] else []

/-- Core `{A, B}` with reaction `A -> B`, edge species `{C}`, no edge
reactions. -/
def mC9 : CoreEdgeReactionModel :=
  { core := ⟨[0, 1], [⟨1, [0], [1]⟩]⟩, edge := ⟨[2], []⟩ }

/-- An integrator that returns a state in which the lead species is fully
depleted. -/
def integC9 : SimState → ℚ → ℚ → SimState × ℚ :=
  fun _ _ _ => (⟨1, 1, 1, [0, 10]⟩, 1)

/-- The zero rate capability. -/
def grZero : Reaction → ℚ → ℚ → (Species → ℚ) → ℚ := fun _ _ _ _ => 0

/-! ## Properties of `pairMax` -/

theorem fst_le_pmStep_left (a b : ℚ × ℕ) : a.1 ≤ (pmStep a b).1 := by
  unfold pmStep
  split
  · rename_i h
    rcases h with h | h
    · exact le_of_lt h
    · exact le_of_eq h.1
  · exact le_rfl

theorem fst_le_pmStep_right (a b : ℚ × ℕ) : b.1 ≤ (pmStep a b).1 := by
  unfold pmStep
  split
  · exact le_rfl
  · rename_i h
    push_neg at h
    exact h.1

theorem pmStep_cases (a b : ℚ × ℕ) : pmStep a b = a ∨ pmStep a b = b := by
  unfold pmStep
  split
  · exact Or.inr rfl
  · exact Or.inl rfl

theorem foldl_pmStep_mem : ∀ (xs : List (ℚ × ℕ)) (a : ℚ × ℕ),
    xs.foldl pmStep a ∈ a :: xs := by
  intro xs
  induction xs with
  | nil => intro a; simp
  | cons x xs ih =>
    intro a
    simp only [List.foldl_cons]
    rcases pmStep_cases a x with hc | hc <;> rw [hc]
    · have h := ih a
      simp only [List.mem_cons] at h ⊢
      tauto
    · have h := ih x
      simp only [List.mem_cons] at h ⊢
      tauto

theorem foldl_pmStep_ge : ∀ (xs : List (ℚ × ℕ)) (a : ℚ × ℕ),
    a.1 ≤ (xs.foldl pmStep a).1 ∧ ∀ b ∈ xs, b.1 ≤ (xs.foldl pmStep a).1 := by
  intro xs
  induction xs with
  | nil => intro a; simp
  | cons x xs ih =>
    intro a
    obtain ⟨h1, h2⟩ := ih (pmStep a x)
    refine ⟨le_trans (fst_le_pmStep_left a x) h1, ?_⟩
    intro b hb
    simp only [List.mem_cons] at hb
    rcases hb with rfl | hb
    · exact le_trans (fst_le_pmStep_right a b) h1
    · exact h2 b hb

theorem pairMax_mem {L : List (ℚ × ℕ)} {p : ℚ × ℕ} (h : pairMax L = some p) :
    p ∈ L := by
  cases L with
  | nil => simp [pairMax] at h
  | cons x xs =>
    simp only [pairMax, Option.some.injEq] at h
    subst h
    exact foldl_pmStep_mem xs x

theorem pairMax_ge {L : List (ℚ × ℕ)} {p : ℚ × ℕ} (h : pairMax L = some p) :
    ∀ a ∈ L, a.1 ≤ p.1 := by
  cases L with
  | nil => simp [pairMax] at h
  | cons x xs =>
    simp only [pairMax, Option.some.injEq] at h
    subst h
    intro a ha
    simp only [List.mem_cons] at ha
    rcases ha with rfl | ha
    · exact (foldl_pmStep_ge xs a).1
    · exact (foldl_pmStep_ge xs x).2 a ha

theorem pairMax_isSome {L : List (ℚ × ℕ)} (h : L ≠ []) : ∃ p, pairMax L = some p := by
  cases L with
  | nil => exact absurd rfl h
  | cons x xs => exact ⟨xs.foldl pmStep x, rfl⟩

/-! ## Verdict characterisations of the two validity checks -/

/-- When the flux dictionary is nonempty, `isValid` returns the boolean
"every edge-species flux entry is at most the characteristic flux". -/
theorem isValid_eq_decide (sqrtQ : ℚ → ℚ) (rate : Reaction → ℚ)
    (m : CoreEdgeReactionModel) (hne : fluxEntries rate m ≠ []) :
    isValid sqrtQ rate m =
      some (decide (∀ e ∈ fluxEntries rate m, e.1 ≤ charFlux sqrtQ rate m)) := by
  obtain ⟨p, hp⟩ := pairMax_isSome hne
  obtain ⟨pf, ps⟩ := p
  unfold isValid
  rw [hp]
  show (if pf > charFlux sqrtQ rate m then some false else some true) = _
  split_ifs with h
  · have : ¬ ∀ e ∈ fluxEntries rate m, e.1 ≤ charFlux sqrtQ rate m := by
      intro hall
      exact absurd (hall (pf, ps) (pairMax_mem hp)) (not_le.mpr h)
    rw [decide_eq_false this]
  · have : ∀ e ∈ fluxEntries rate m, e.1 ≤ charFlux sqrtQ rate m := by
      intro e he
      exact le_trans (pairMax_ge hp e he) (not_lt.mp h)
    rw [decide_eq_true this]

/-- When the edge is nonempty, the verdict of `isModelValid` is the boolean
"every edge row of `stoichiometry · rates` is at most the characteristic
flux". -/
theorem isModelValid_fst_eq_decide (sqrtQ : ℚ → ℚ) (rate : Reaction → ℚ)
    (m : CoreEdgeReactionModel) (hne : modelEntries rate m ≠ []) :
    (isModelValid sqrtQ rate m).map Prod.fst =
      some (decide (∀ e ∈ modelEntries rate m, e.1 ≤ charFluxBR sqrtQ rate m)) := by
  obtain ⟨p, hp⟩ := pairMax_isSome hne
  obtain ⟨pf, ps⟩ := p
  unfold isModelValid
  rw [hp]
  show Option.map Prod.fst
      (if pf > charFluxBR sqrtQ rate m then
        some (false, some ((speciesList m).getD ps 0)) else some (true, none)) = _
  split_ifs with h
  · have : ¬ ∀ e ∈ modelEntries rate m, e.1 ≤ charFluxBR sqrtQ rate m := by
      intro hall
      exact absurd (hall (pf, ps) (pairMax_mem hp)) (not_le.mpr h)
    rw [decide_eq_false this]
    rfl
  · have : ∀ e ∈ modelEntries rate m, e.1 ≤ charFluxBR sqrtQ rate m := by
      intro e he
      exact le_trans (pairMax_ge hp e he) (not_lt.mp h)
    rw [decide_eq_true this]
    rfl

/-- An edge species not touched by any core reaction accumulates zero
`specFlux`. -/
theorem specFlux_of_untouched (rate : Reaction → ℚ) (m : CoreEdgeReactionModel)
    (s : Species) (hs : s ∈ m.edge.species) (ht : touchedEdge m s = false) :
    specFlux rate m s = 0 := by
  unfold touchedEdge at ht
  simp only [Bool.and_eq_false_iff, decide_eq_false_iff_not] at ht
  rcases ht with ht | ht
  · exact absurd hs ht
  · unfold specFlux
    apply List.sum_eq_zero
    intro x hx
    obtain ⟨rxn, hrxn, rfl⟩ := List.mem_map.mp hx
    rw [List.any_eq_false] at ht
    have := ht rxn hrxn
    simp only [Bool.or_eq_true, decide_eq_true_eq, not_or] at this
    rw [List.count_eq_zero.mpr this.1, List.count_eq_zero.mpr this.2]
    simp

/-- With no edge reactions, the row of `stoichiometry · rates` for a species
equals the `specFlux` accumulation over the core reactions. -/
theorem modelFlux_eq_specFlux (rate : Reaction → ℚ) (m : CoreEdgeReactionModel)
    (hner : m.edge.reactions = []) (s : Species) :
    modelFlux rate m s = specFlux rate m s := by
  unfold modelFlux specFlux reactionList Reaction.getStoichiometricCoefficient
  rw [hner, List.append_nil]
  congr 1
  apply List.map_congr_left
  intro rxn _
  push_cast
  ring

/-! ## Claim theorems: validity screening -/

/-- C1 (counterexample).  The per-span validity check of `simulate`
(`isModelValid`) multiplies the FULL stoichiometry matrix by the FULL rate
vector, so edge reaction rates DO contribute to edge species fluxes, unlike
`CoreEdgeReactionModel.isValid`, which accumulates from core reactions only.
On `mC1` (core reaction `A -> B` at rate 10, edge reaction `A -> 2B` at rate
100, `sqrt(10^2) = 10`), `isValid` reports the model valid (flux on `B` is 10,
not above the characteristic flux 10), while `isModelValid` reports it invalid
with offending species `B` (flux `10 + 2*100 = 210`). -/
theorem isModelValid_edge_reaction_disagreement :
    isValid sq100 rateC1 mC1 = some true ∧
    isModelValid sq100 rateC1 mC1 = some (false, some 1) := by
  constructor
  · norm_num [isValid, fluxEntries, charFlux, specFlux, touchedEdge, pairMax, pmStep,
      mC1, sq100, rateC1, List.dedup, List.filter]
  · norm_num [isModelValid, modelEntries, charFluxBR, modelFlux, reactionList,
      speciesList, pairMax, pmStep, mC1, sq100, rateC1,
      Reaction.getStoichiometricCoefficient, List.enum, List.enumFrom]

/-- C1 (amended).  When the model has no edge reactions, at least one edge
species receives core flux, the characteristic flux is nonnegative (as it is
for the real `math.sqrt` and the default tolerance), and the core reactions
are duplicate-free, the verdict of `isModelValid` coincides with
`CoreEdgeReactionModel.isValid` on the same state and conditions. -/
theorem isModelValid_fst_eq_isValid_of_no_edge_reactions (sqrtQ : ℚ → ℚ)
    (rate : Reaction → ℚ) (m : CoreEdgeReactionModel)
    (hner : m.edge.reactions = []) (hne : fluxEntries rate m ≠ [])
    (hchar : 0 ≤ charFlux sqrtQ rate m) (hnodup : m.core.reactions.Nodup) :
    (isModelValid sqrtQ rate m).map Prod.fst = isValid sqrtQ rate m := by
  have hcf : charFluxBR sqrtQ rate m = charFlux sqrtQ rate m := by
    unfold charFluxBR charFlux
    rw [List.dedup_eq_self.mpr hnodup]
  have hse : ∃ s, s ∈ m.edge.species := by
    obtain ⟨e, he⟩ := List.exists_mem_of_ne_nil _ hne
    unfold fluxEntries at he
    obtain ⟨s, hs, rfl⟩ := List.mem_map.mp he
    exact ⟨s, List.mem_dedup.mp (List.mem_filter.mp hs).1⟩
  have hne' : modelEntries rate m ≠ [] := by
    obtain ⟨s, hs⟩ := hse
    intro hempty
    unfold modelEntries at hempty
    rw [List.map_eq_nil_iff, List.enum_eq_nil] at hempty
    rw [hempty] at hs
    exact absurd hs (List.not_mem_nil s)
  rw [isValid_eq_decide sqrtQ rate m hne, isModelValid_fst_eq_decide sqrtQ rate m hne']
  rw [Option.some_inj, decide_eq_decide]
  constructor
  · intro h e he
    unfold fluxEntries at he
    obtain ⟨s, hs, rfl⟩ := List.mem_map.mp he
    have hsmem : s ∈ m.edge.species :=
      List.mem_dedup.mp (List.mem_filter.mp hs).1
    obtain ⟨i, hi⟩ := List.mem_iff_getElem?.mp hsmem
    have hen : (i, s) ∈ m.edge.species.enum := List.mk_mem_enum_iff_getElem?.mpr hi
    have hmem : (modelFlux rate m s, i + m.core.species.length) ∈ modelEntries rate m := by
      unfold modelEntries
      exact List.mem_map.mpr ⟨(i, s), hen, rfl⟩
    have := h _ hmem
    simpa [modelFlux_eq_specFlux rate m hner, hcf] using this
  · intro h e he
    unfold modelEntries at he
    obtain ⟨⟨i, s⟩, hen, rfl⟩ := List.mem_map.mp he
    have hsmem : s ∈ m.edge.species := by
      have := List.mk_mem_enum_iff_getElem?.mp hen
      exact List.getElem?_mem this
    by_cases htch : touchedEdge m s = true
    · have hfmem : (specFlux rate m s, s) ∈ fluxEntries rate m := by
        unfold fluxEntries
        refine List.mem_map.mpr ⟨s, ?_, rfl⟩
        exact List.mem_filter.mpr ⟨List.mem_dedup.mpr hsmem, htch⟩
      have := h _ hfmem
      simpa [modelFlux_eq_specFlux rate m hner, hcf] using this
    · have h0 : specFlux rate m s = 0 :=
        specFlux_of_untouched rate m s hsmem (Bool.eq_false_iff.mpr htch)
      simp only [modelFlux_eq_specFlux rate m hner, h0, hcf]
      exact hchar

/-- C1 (amended, witness): on `mC5` (core reaction `A -> B` at rate 10, edge
species `B`, no edge reactions) both checks agree and report the model
valid. -/
theorem isModelValid_fst_eq_isValid_witness :
    (isModelValid sq100 rate10 mC5).map Prod.fst = isValid sq100 rate10 mC5 ∧
    isValid sq100 rate10 mC5 = some true := by
  refine ⟨isModelValid_fst_eq_isValid_of_no_edge_reactions sq100 rate10 mC5 rfl
    (by norm_num [fluxEntries, specFlux, touchedEdge, mC5, rate10, List.dedup, List.filter])
    (by norm_num [charFlux, mC5, sq100, rate10]) (by decide), ?_⟩
  norm_num [isValid, fluxEntries, charFlux, specFlux, touchedEdge, pairMax, pmStep,
    mC5, sq100, rate10, List.dedup, List.filter]

/-- C2 (counterexample).  `CoreEdgeReactionModel.isValid` returns a bare
boolean (`return False` / `return True`), not the `(false, maxSpecies)` /
`(true, none)` pair the claim describes: on two models whose offending
maximum-flux edge species differ (`B` for `mC2a`, `C` for `mC2b`), the
spec-described pair differs but the code's return values are identical, so no
reading of the code's return value can carry the offending species. -/
theorem isValid_verdict_only_counterexample :
    isValid sq100 rate10 mC2a = isValid sq100 rate10 mC2b ∧
    isValid sq100 rate10 mC2a = some false ∧
    isValidSpecPair sq100 rate10 mC2a ≠ isValidSpecPair sq100 rate10 mC2b := by
  refine ⟨?_, ?_, ?_⟩ <;>
    norm_num [isValid, isValidSpecPair, fluxEntries, charFlux, specFlux, touchedEdge,
      pairMax, pmStep, mC2a, mC2b, sq100, rate10, List.dedup, List.filter]

/-- C2 (amended).  Whenever at least one edge species receives flux, `isValid`
returns exactly the boolean verdict of the spec's pair — `false` when invalid,
`true` when valid — with the offending species computed internally but not
returned. -/
theorem isValid_eq_spec_verdict (sqrtQ : ℚ → ℚ) (rate : Reaction → ℚ)
    (m : CoreEdgeReactionModel) (hne : fluxEntries rate m ≠ []) :
    isValid sqrtQ rate m = some (isValidSpecPair sqrtQ rate m).1 := by
  obtain ⟨p, hp⟩ := pairMax_isSome hne
  obtain ⟨pf, ps⟩ := p
  unfold isValid isValidSpecPair
  rw [hp]
  show (if pf > charFlux sqrtQ rate m then some false else some true) =
    some (Prod.fst (if pf > charFlux sqrtQ rate m then (false, some ps) else (true, none)))
  split_ifs <;> rfl

/-- C2 (amended, witness): on the invalid model `mC2a` the code returns
`some false`, the first component of the spec pair. -/
theorem isValid_eq_spec_verdict_witness :
    isValid sq100 rate10 mC2a = some (isValidSpecPair sq100 rate10 mC2a).1 ∧
    isValid sq100 rate10 mC2a = some false := by
  refine ⟨isValid_eq_spec_verdict sq100 rate10 mC2a ?_, ?_⟩
  · norm_num [fluxEntries, specFlux, touchedEdge, mC2a, rate10, List.dedup, List.filter]
  · norm_num [isValid, fluxEntries, charFlux, specFlux, touchedEdge, pairMax, pmStep,
      mC2a, sq100, rate10, List.dedup, List.filter]

/-- C3 (code bug, evaluation at the failing input).  On a model whose edge is
empty (`mC3`: core `{A}` with reaction `A -> A`), no edge species receives any
flux, and both `CoreEdgeReactionModel.isValid` and `BatchReactor.isModelValid`
raise `ValueError` from `max()` of an empty sequence (modelled `none`) instead
of reporting the model trivially valid. -/
theorem isValid_empty_flux_raises :
    isValid sq100 rate10 mC3 = none ∧ isModelValid sq100 rate10 mC3 = none := by
  exact ⟨rfl, rfl⟩

/-- C5.  With `(maxF, maxS)` the maximum entry (by signed value) of the
edge-species flux dictionary: exactly-equal maximum flux is valid (the
comparison `maxSpecFlux > charFlux` is strict); strictly greater is invalid;
invalidity occurs only for strictly greater; and when the characteristic flux
is nonnegative (as for the real `math.sqrt` and the default tolerance), a
nonpositive — in particular, large negative, net-consumption — maximum edge
flux never triggers invalidity. -/
theorem isValid_strict_comparison (sqrtQ : ℚ → ℚ) (rate : Reaction → ℚ)
    (m : CoreEdgeReactionModel) (maxF : ℚ) (maxS : ℕ)
    (hmax : pairMax (fluxEntries rate m) = some (maxF, maxS)) :
    (maxF = charFlux sqrtQ rate m → isValid sqrtQ rate m = some true) ∧
    (charFlux sqrtQ rate m < maxF → isValid sqrtQ rate m = some false) ∧
    (isValid sqrtQ rate m = some false → charFlux sqrtQ rate m < maxF) ∧
    (0 ≤ charFlux sqrtQ rate m → maxF ≤ 0 → isValid sqrtQ rate m = some true) := by
  have hred : isValid sqrtQ rate m =
      if maxF > charFlux sqrtQ rate m then some false else some true := by
    unfold isValid
    rw [hmax]
  rw [hred]
  refine ⟨?_, ?_, ?_, ?_⟩
  · intro h
    rw [if_neg]
    simp [h]
  · intro h
    rw [if_pos h]
  · intro h
    by_contra hlt
    rw [if_neg hlt] at h
    exact absurd h (by simp)
  · intro h0 hneg
    rw [if_neg (not_lt.mpr (le_trans hneg h0))]

/-- C5 (witness): on `mC5` the maximum edge flux 10 equals the characteristic
flux `sqrt(10^2) = 10` exactly, and the model is reported valid. -/
theorem isValid_strict_comparison_witness :
    isValid sq100 rate10 mC5 = some true := by
  refine (isValid_strict_comparison sq100 rate10 mC5 10 1 ?_).1 ?_
  · norm_num [fluxEntries, specFlux, touchedEdge, pairMax, mC5, rate10,
      List.dedup, List.filter]
  · norm_num [charFlux, mC5, sq100, rate10]

/-! ## Structural lemmas for the core/edge mutation operations -/

theorem allCore_append (cs l : List Species) (rxn : Reaction)
    (h : allCore cs rxn = true) : allCore (cs ++ l) rxn = true := by
  unfold allCore at h ⊢
  simp only [Bool.and_eq_true, List.all_eq_true, decide_eq_true_eq] at h ⊢
  exact ⟨fun r hr => List.mem_append_left l (h.1 r hr),
         fun p hp => List.mem_append_left l (h.2 p hp)⟩

/-- Folding `addReactionToCore` over a reaction list appends them all to the
core reactions, erases them one by one from the edge reactions, and leaves
both species lists unchanged. -/
theorem foldl_addReactionToCore_fields (rs : List Reaction) :
    ∀ m : CoreEdgeReactionModel,
      (rs.foldl addReactionToCore m).core.species = m.core.species ∧
      (rs.foldl addReactionToCore m).core.reactions = m.core.reactions ++ rs ∧
      (rs.foldl addReactionToCore m).edge.species = m.edge.species ∧
      (rs.foldl addReactionToCore m).edge.reactions = rs.foldl List.erase m.edge.reactions := by
  induction rs with
  | nil => exact fun m => ⟨rfl, by simp, rfl, rfl⟩
  | cons r rs ih =>
    intro m
    obtain ⟨h1, h2, h3, h4⟩ := ih (addReactionToCore m r)
    refine ⟨h1, ?_, h3, h4⟩
    rw [List.foldl_cons, h2]
    show (m.core.reactions ++ [r]) ++ rs = m.core.reactions ++ r :: rs
    rw [List.append_assoc, List.singleton_append]

/-- Erasing, in order, the elements of `a :: t` that are absent from the fold
list commutes with the cons. -/
theorem foldl_erase_cons {α : Type} [DecidableEq α] (a : α) (rs : List α) :
    ∀ t : List α, a ∉ rs → rs.foldl List.erase (a :: t) = a :: rs.foldl List.erase t := by
  induction rs with
  | nil => exact fun t _ => rfl
  | cons r rs ih =>
    intro t ha
    simp only [List.mem_cons, not_or] at ha
    simp only [List.foldl_cons]
    rw [List.erase_cons_tail (by simp [ha.1]), ih (t.erase r) ha.2]

/-- Erasing, in order, exactly the `p`-satisfying elements of `l` from `l`
leaves the elements failing `p`, in order. -/
theorem foldl_erase_filter {α : Type} [DecidableEq α] (l : List α) (p : α → Bool) :
    (l.filter p).foldl List.erase l = l.filter (fun a => ! p a) := by
  induction l with
  | nil => rfl
  | cons a t ih =>
    by_cases hp : p a = true
    · rw [List.filter_cons_of_pos hp, List.foldl_cons, List.erase_cons_head, ih,
        List.filter_cons_of_neg (by simp [hp])]
    · have ha : a ∉ t.filter p := fun hmem => hp (List.of_mem_filter hmem)
      rw [List.filter_cons_of_neg hp, foldl_erase_cons a (t.filter p) t ha, ih,
        List.filter_cons_of_pos (by simp [Bool.eq_false_iff.mpr hp])]

/-- Field characterisation of `addSpeciesToCore` when the species was in the
edge: the core gains the species and the promoted reactions, the edge loses
them. -/
theorem addSpeciesToCore_fields_of_mem (m : CoreEdgeReactionModel) (s : Species)
    (hs : s ∈ m.edge.species) :
    (addSpeciesToCore m s).core.species = m.core.species ++ [s] ∧
    (addSpeciesToCore m s).core.reactions
      = m.core.reactions ++ m.edge.reactions.filter (allCore (m.core.species ++ [s])) ∧
    (addSpeciesToCore m s).edge.species = m.edge.species.erase s ∧
    (addSpeciesToCore m s).edge.reactions
      = m.edge.reactions.filter (fun r => ! allCore (m.core.species ++ [s]) r) := by
  unfold addSpeciesToCore
  rw [if_pos hs]
  obtain ⟨h1, h2, h3, h4⟩ := foldl_addReactionToCore_fields
    (m.edge.reactions.filter (allCore (m.core.species ++ [s])))
    { m with core := { m.core with species := m.core.species ++ [s] },
             edge := { m.edge with species := m.edge.species.erase s } }
  refine ⟨h1, h2, h3, ?_⟩
  rw [h4]
  exact foldl_erase_filter m.edge.reactions (allCore (m.core.species ++ [s]))

/-- Field characterisation of `addSpeciesToCore` when the species was not in
the edge: only the core species list changes. -/
theorem addSpeciesToCore_fields_of_not_mem (m : CoreEdgeReactionModel) (s : Species)
    (hs : s ∉ m.edge.species) :
    (addSpeciesToCore m s).core.species = m.core.species ++ [s] ∧
    (addSpeciesToCore m s).core.reactions = m.core.reactions ∧
    (addSpeciesToCore m s).edge.species = m.edge.species ∧
    (addSpeciesToCore m s).edge.reactions = m.edge.reactions := by
  unfold addSpeciesToCore
  rw [if_neg hs]
  exact ⟨rfl, rfl, rfl, rfl⟩

/-- `mC6`: core `{A}` with no reactions; edge species `{B}`; one edge
reaction `A -> B`. -/
def mC6 : CoreEdgeReactionModel :=
  { core := ⟨[0], []⟩, edge := ⟨[1], [⟨1, [0], [1]⟩]⟩ }

/-- C6.  On a model state satisfying the data-model invariants — edge species
duplicate-free (§3 `ReactionModel` invariant), no edge reaction all-core
(invariant (3)), every species referenced by an edge reaction in
`core ∪ edge` (invariant (4)) — after `addSpeciesToCore(s)`: every
previously-edge reaction whose reactants and products are all in the new core
species is in `core.reactions` and absent from `edge.reactions`; no reaction
remaining in `edge.reactions` is all-core; and `s` is not an edge species.
The cascade is the single scan over the edge reactions inside
`addSpeciesToCore`. -/
theorem addSpeciesToCore_promotion (m : CoreEdgeReactionModel) (s : Species)
    (hnodup : m.edge.species.Nodup)
    (hinv3 : ∀ r ∈ m.edge.reactions, allCore m.core.species r = false)
    (hinv4 : ∀ r ∈ m.edge.reactions, ∀ v ∈ r.reactants ++ r.products,
       v ∈ m.core.species ∨ v ∈ m.edge.species) :
    (∀ r ∈ m.edge.reactions, allCore (addSpeciesToCore m s).core.species r = true →
       r ∈ (addSpeciesToCore m s).core.reactions ∧
       r ∉ (addSpeciesToCore m s).edge.reactions) ∧
    (∀ r ∈ (addSpeciesToCore m s).edge.reactions,
       allCore (addSpeciesToCore m s).core.species r = false) ∧
    s ∉ (addSpeciesToCore m s).edge.species := by
  by_cases hs : s ∈ m.edge.species
  · obtain ⟨h1, h2, h3, h4⟩ := addSpeciesToCore_fields_of_mem m s hs
    refine ⟨?_, ?_, ?_⟩
    · intro r hr hall
      rw [h1] at hall
      constructor
      · rw [h2]
        exact List.mem_append_right _ (List.mem_filter.mpr ⟨hr, hall⟩)
      · rw [h4]
        intro hmem
        have hneg := (List.mem_filter.mp hmem).2
        rw [hall] at hneg
        exact absurd hneg (by simp)
    · intro r hr
      rw [h4] at hr
      have hneg := (List.mem_filter.mp hr).2
      rw [h1]
      simpa using hneg
    · rw [h3]
      intro hmem
      exact ((List.Nodup.mem_erase_iff hnodup).mp hmem).1 rfl
  · obtain ⟨h1, h2, h3, h4⟩ := addSpeciesToCore_fields_of_not_mem m s hs
    have key : ∀ r ∈ m.edge.reactions, allCore (m.core.species ++ [s]) r = false := by
      intro r hr
      by_contra hxx
      rw [Bool.not_eq_false] at hxx
      have hfalse : ¬ allCore m.core.species r = true := by
        rw [hinv3 r hr]; simp
      unfold allCore at hfalse hxx
      simp only [Bool.and_eq_true, List.all_eq_true, decide_eq_true_eq,
        not_and_or, not_forall, exists_prop] at hfalse
      simp only [Bool.and_eq_true, List.all_eq_true, decide_eq_true_eq] at hxx
      rcases hfalse with ⟨v, hv, hvn⟩ | ⟨v, hv, hvn⟩
      · have hvmem := hxx.1 v hv
        rcases List.mem_append.mp hvmem with hvc | hvs
        · exact hvn hvc
        · have hv2 := hinv4 r hr v (List.mem_append_left _ hv)
          rcases hv2 with hv2 | hv2
          · exact hvn hv2
          · rw [List.mem_singleton.mp hvs] at hv2
            exact hs hv2
      · have hvmem := hxx.2 v hv
        rcases List.mem_append.mp hvmem with hvc | hvs
        · exact hvn hvc
        · have hv2 := hinv4 r hr v (List.mem_append_right _ hv)
          rcases hv2 with hv2 | hv2
          · exact hvn hv2
          · rw [List.mem_singleton.mp hvs] at hv2
            exact hs hv2
    refine ⟨?_, ?_, ?_⟩
    · intro r hr hall
      rw [h1] at hall
      rw [key r hr] at hall
      exact absurd hall (by simp)
    · intro r hr
      rw [h4] at hr
      rw [h1]
      exact key r hr
    · rw [h3]
      exact hs

/-- C6 (witness): promoting `B` into the core of `mC6` moves the edge
reaction `A -> B` to the core, removes it from the edge, and removes `B` from
the edge species. -/
theorem addSpeciesToCore_promotion_witness :
    (⟨1, [0], [1]⟩ : Reaction) ∈ (addSpeciesToCore mC6 1).core.reactions ∧
    (⟨1, [0], [1]⟩ : Reaction) ∉ (addSpeciesToCore mC6 1).edge.reactions ∧
    (1 : Species) ∉ (addSpeciesToCore mC6 1).edge.species := by
  have h := addSpeciesToCore_promotion mC6 1 (by decide) (by decide) (by decide)
  have h2 := h.1 ⟨1, [0], [1]⟩ (by decide) (by decide)
  exact ⟨h2.1, h2.2, h.2.2⟩

/-- A fold whose step preserves the `core` field preserves it overall. -/
theorem foldl_core_eq {β : Type} (f : CoreEdgeReactionModel → β → CoreEdgeReactionModel)
    (hf : ∀ mm b, (f mm b).core = mm.core) (bs : List β) :
    ∀ m : CoreEdgeReactionModel, (bs.foldl f m).core = m.core := by
  induction bs with
  | nil => exact fun _ => rfl
  | cons b bs ih => exact fun m => (ih (f m b)).trans (hf m b)

/-- The species-addition fold inside `enlarge`/`initialize` bodies: the core
is untouched, the edge species list is only extended, the edge reactions are
untouched. -/
theorem foldl_addMissing_fields (specs : List Species) :
    ∀ m : CoreEdgeReactionModel,
      (specs.foldl (fun mm spec =>
        if spec ∈ mm.edge.species ∨ spec ∈ mm.core.species then mm
        else addSpeciesToEdge mm spec) m).core = m.core ∧
      (∃ l, (specs.foldl (fun mm spec =>
        if spec ∈ mm.edge.species ∨ spec ∈ mm.core.species then mm
        else addSpeciesToEdge mm spec) m).edge.species = m.edge.species ++ l) ∧
      (specs.foldl (fun mm spec =>
        if spec ∈ mm.edge.species ∨ spec ∈ mm.core.species then mm
        else addSpeciesToEdge mm spec) m).edge.reactions = m.edge.reactions := by
  induction specs with
  | nil => exact fun m => ⟨rfl, ⟨[], by simp⟩, rfl⟩
  | cons sp specs ih =>
    intro m
    simp only [List.foldl_cons]
    set m1 := if sp ∈ m.edge.species ∨ sp ∈ m.core.species then m
      else addSpeciesToEdge m sp with hm1
    obtain ⟨h1, ⟨l, h2⟩, h3⟩ := ih m1
    have hc : m1.core = m.core := by
      rw [hm1]; split <;> rfl
    have hr : m1.edge.reactions = m.edge.reactions := by
      rw [hm1]; split <;> rfl
    have hsp : ∃ l0, m1.edge.species = m.edge.species ++ l0 := by
      rw [hm1]; split
      · exact ⟨[], by simp⟩
      · exact ⟨[sp], rfl⟩
    obtain ⟨l0, h4⟩ := hsp
    refine ⟨h1.trans hc, ⟨l0 ++ l, ?_⟩, h3.trans hr⟩
    rw [h2, h4, List.append_assoc]

theorem addReactionToCore_core_species (m : CoreEdgeReactionModel) (r : Reaction) :
    (addReactionToCore m r).core.species = m.core.species := rfl

theorem addReactionToCore_edge_species (m : CoreEdgeReactionModel) (r : Reaction) :
    (addReactionToCore m r).edge.species = m.edge.species := rfl

theorem addReactionToEdge_core_species (m : CoreEdgeReactionModel) (r : Reaction) :
    (addReactionToEdge m r).core.species = m.core.species := rfl

theorem addReactionToEdge_edge_species (m : CoreEdgeReactionModel) (r : Reaction) :
    (addReactionToEdge m r).edge.species = m.edge.species := rfl

/-- `enlargeStep` never changes the core species and only extends the edge
species. -/
theorem enlargeStep_species (m : CoreEdgeReactionModel) (rxn : Reaction) :
    (enlargeStep m rxn).core.species = m.core.species ∧
    ∃ l, (enlargeStep m rxn).edge.species = m.edge.species ++ l := by
  obtain ⟨h1, ⟨l, h2⟩, _⟩ := foldl_addMissing_fields (rxn.reactants ++ rxn.products) m
  simp only [enlargeStep]
  split
  · exact ⟨(addReactionToCore_core_species _ _).trans (congrArg ReactionModel.species h1),
      ⟨l, (addReactionToCore_edge_species _ _).trans h2⟩⟩
  · exact ⟨(addReactionToEdge_core_species _ _).trans (congrArg ReactionModel.species h1),
      ⟨l, (addReactionToEdge_edge_species _ _).trans h2⟩⟩

/-- Folding `enlargeStep` never changes the core species and only extends the
edge species. -/
theorem foldl_enlargeStep_species (rs : List Reaction) :
    ∀ m : CoreEdgeReactionModel,
      (rs.foldl enlargeStep m).core.species = m.core.species ∧
      ∃ l, (rs.foldl enlargeStep m).edge.species = m.edge.species ++ l := by
  induction rs with
  | nil => exact fun m => ⟨rfl, ⟨[], by simp⟩⟩
  | cons r rs ih =>
    intro m
    obtain ⟨h1, ⟨l, h2⟩⟩ := ih (enlargeStep m r)
    obtain ⟨g1, ⟨l0, g2⟩⟩ := enlargeStep_species m r
    refine ⟨h1.trans g1, ⟨l0 ++ l, ?_⟩⟩
    rw [List.foldl_cons, h2, g2, List.append_assoc]

/-- `addSpeciesToCore` grows the core species count by one and never
decreases the combined species count. -/
theorem addSpeciesToCore_counts (m : CoreEdgeReactionModel) (s : Species) :
    (addSpeciesToCore m s).core.species.length = m.core.species.length + 1 ∧
    m.core.species.length + m.edge.species.length ≤
      (addSpeciesToCore m s).core.species.length +
      (addSpeciesToCore m s).edge.species.length := by
  by_cases hs : s ∈ m.edge.species
  · obtain ⟨h1, _, h3, _⟩ := addSpeciesToCore_fields_of_mem m s hs
    have hpos : 0 < m.edge.species.length := List.length_pos_of_mem hs
    constructor
    · rw [h1, List.length_append, List.length_singleton]
    · rw [h1, h3, List.length_append, List.length_singleton,
        List.length_erase_of_mem hs]
      omega
  · obtain ⟨h1, _, h3, _⟩ := addSpeciesToCore_fields_of_not_mem m s hs
    constructor
    · rw [h1, List.length_append, List.length_singleton]
    · rw [h1, h3, List.length_append, List.length_singleton]
      omega

/-- C7.  `enlarge(s)` never decreases the number of core species, and never
decreases the combined count of core plus edge species. -/
theorem enlarge_species_counts_mono (getReactions : List Species → List Reaction)
    (reactive : Species → Bool) (m : CoreEdgeReactionModel) (newSpecies : Species) :
    m.core.species.length ≤
      (enlarge getReactions reactive m newSpecies).core.species.length ∧
    m.core.species.length + m.edge.species.length ≤
      (enlarge getReactions reactive m newSpecies).core.species.length +
      (enlarge getReactions reactive m newSpecies).edge.species.length := by
  obtain ⟨rs, hrs⟩ : ∃ rs : List Reaction, enlarge getReactions reactive m newSpecies
      = List.foldl enlargeStep (addSpeciesToCore m newSpecies) rs := ⟨_, rfl⟩
  rw [hrs]
  obtain ⟨h1, ⟨l, h2⟩⟩ := foldl_enlargeStep_species rs (addSpeciesToCore m newSpecies)
  rw [h1, h2, List.length_append]
  obtain ⟨g1, g2⟩ := addSpeciesToCore_counts m newSpecies
  omega

/-! ## Claim theorems: `initialize` -/

/-- The forward half of invariant (3): every core reaction references only
core species. -/
def coreReactionsAllCore (m : CoreEdgeReactionModel) : Prop :=
  ∀ r ∈ m.core.reactions, allCore m.core.species r = true

theorem addSpeciesToCore_allCore (m : CoreEdgeReactionModel) (s : Species)
    (hm : coreReactionsAllCore m) :
    coreReactionsAllCore (addSpeciesToCore m s) := by
  by_cases hs : s ∈ m.edge.species
  · obtain ⟨h1, h2, _, _⟩ := addSpeciesToCore_fields_of_mem m s hs
    unfold coreReactionsAllCore at hm ⊢
    rw [h1, h2]
    intro r hr
    rcases List.mem_append.mp hr with h | h
    · exact allCore_append _ _ _ (hm r h)
    · exact (List.mem_filter.mp h).2
  · obtain ⟨h1, h2, _, _⟩ := addSpeciesToCore_fields_of_not_mem m s hs
    unfold coreReactionsAllCore at hm ⊢
    rw [h1, h2]
    exact fun r hr => allCore_append _ _ _ (hm r hr)

theorem initStep_allCore (getReactions : List Species → List Reaction)
    (reactive : Species → Bool) (m : CoreEdgeReactionModel) (species1 : Species)
    (hm : coreReactionsAllCore m) :
    coreReactionsAllCore (initStep getReactions reactive m species1) := by
  obtain ⟨rs, hrs⟩ : ∃ rs : List Reaction,
      initStep getReactions reactive m species1
        = List.foldl (fun mm rxn => addReactionToEdge
            ((rxn.reactants ++ rxn.products).foldl
              (fun a spec =>
                if spec ∈ a.edge.species ∨ spec ∈ a.core.species then a
                else addSpeciesToEdge a spec) mm) rxn)
            (addSpeciesToCore m species1) rs := ⟨_, rfl⟩
  rw [hrs]
  have hf : ∀ (mm : CoreEdgeReactionModel) (rxn : Reaction),
      (addReactionToEdge ((rxn.reactants ++ rxn.products).foldl
        (fun a spec =>
          if spec ∈ a.edge.species ∨ spec ∈ a.core.species then a
          else addSpeciesToEdge a spec) mm) rxn).core = mm.core := by
    intro mm rxn
    show ((rxn.reactants ++ rxn.products).foldl _ mm).core = mm.core
    exact foldl_core_eq _ (by intro a spec; split <;> rfl) _ mm
  have hcore := foldl_core_eq _ hf rs (addSpeciesToCore m species1)
  unfold coreReactionsAllCore
  rw [hcore]
  exact addSpeciesToCore_allCore m species1 hm

/-- Invariant (1): no species is both a core species and an edge species. -/
def coreEdgeDisjoint (m : CoreEdgeReactionModel) : Prop :=
  ∀ v ∈ m.core.species, v ∉ m.edge.species

/-- Invariant (4): every species referenced by any core or edge reaction is a
core or edge species. -/
def speciesKnown (m : CoreEdgeReactionModel) : Prop :=
  ∀ r ∈ m.core.reactions ++ m.edge.reactions, ∀ v ∈ r.reactants ++ r.products,
    v ∈ m.core.species ∨ v ∈ m.edge.species

/-- `addSpeciesToCore` never removes a species from the core/edge union. -/
theorem addSpeciesToCore_union_mono (m : CoreEdgeReactionModel) (s v : Species)
    (h : v ∈ m.core.species ∨ v ∈ m.edge.species) :
    v ∈ (addSpeciesToCore m s).core.species ∨ v ∈ (addSpeciesToCore m s).edge.species := by
  by_cases hs : s ∈ m.edge.species
  · obtain ⟨h1, _, h3, _⟩ := addSpeciesToCore_fields_of_mem m s hs
    rw [h1, h3]
    rcases h with h | h
    · exact Or.inl (List.mem_append_left _ h)
    · by_cases hv : v = s
      · subst hv
        exact Or.inl (List.mem_append_right _ (List.mem_singleton_self v))
      · exact Or.inr ((List.mem_erase_of_ne hv).mpr h)
  · obtain ⟨h1, _, h3, _⟩ := addSpeciesToCore_fields_of_not_mem m s hs
    rw [h1, h3]
    rcases h with h | h
    · exact Or.inl (List.mem_append_left _ h)
    · exact Or.inr h

/-- `addSpeciesToCore` introduces no new reactions: every reaction of the
result was a core or edge reaction before. -/
theorem addSpeciesToCore_reactions_subset (m : CoreEdgeReactionModel) (s : Species)
    (r : Reaction)
    (h : r ∈ (addSpeciesToCore m s).core.reactions ++ (addSpeciesToCore m s).edge.reactions) :
    r ∈ m.core.reactions ++ m.edge.reactions := by
  by_cases hs : s ∈ m.edge.species
  · obtain ⟨_, h2, _, h4⟩ := addSpeciesToCore_fields_of_mem m s hs
    rw [h2, h4] at h
    rcases List.mem_append.mp h with h | h
    · rcases List.mem_append.mp h with h | h
      · exact List.mem_append_left _ h
      · exact List.mem_append_right _ (List.mem_of_mem_filter h)
    · exact List.mem_append_right _ (List.mem_of_mem_filter h)
  · obtain ⟨_, h2, _, h4⟩ := addSpeciesToCore_fields_of_not_mem m s hs
    rw [h2, h4] at h
    exact h

theorem addSpeciesToCore_disjoint (m : CoreEdgeReactionModel) (s : Species)
    (hd : coreEdgeDisjoint m) (hn : m.edge.species.Nodup) :
    coreEdgeDisjoint (addSpeciesToCore m s) := by
  by_cases hs : s ∈ m.edge.species
  · obtain ⟨h1, _, h3, _⟩ := addSpeciesToCore_fields_of_mem m s hs
    intro v hv
    rw [h1] at hv
    rw [h3]
    rcases List.mem_append.mp hv with hv | hv
    · intro hmem
      exact hd v hv (List.mem_of_mem_erase hmem)
    · rw [List.mem_singleton] at hv
      subst hv
      intro hmem
      exact ((List.Nodup.mem_erase_iff hn).mp hmem).1 rfl
  · obtain ⟨h1, _, h3, _⟩ := addSpeciesToCore_fields_of_not_mem m s hs
    intro v hv
    rw [h1] at hv
    rw [h3]
    rcases List.mem_append.mp hv with hv | hv
    · exact hd v hv
    · rw [List.mem_singleton] at hv
      subst hv
      exact hs

theorem addSpeciesToCore_nodup_edge (m : CoreEdgeReactionModel) (s : Species)
    (hn : m.edge.species.Nodup) : (addSpeciesToCore m s).edge.species.Nodup := by
  by_cases hs : s ∈ m.edge.species
  · obtain ⟨_, _, h3, _⟩ := addSpeciesToCore_fields_of_mem m s hs
    rw [h3]
    exact hn.erase s
  · obtain ⟨_, _, h3, _⟩ := addSpeciesToCore_fields_of_not_mem m s hs
    rw [h3]
    exact hn

theorem addSpeciesToCore_known (m : CoreEdgeReactionModel) (s : Species)
    (hk : speciesKnown m) : speciesKnown (addSpeciesToCore m s) := by
  intro r hr v hv
  exact addSpeciesToCore_union_mono m s v
    (hk r (addSpeciesToCore_reactions_subset m s r hr) v hv)

/-- The species-addition fold of the `initialize` body preserves invariant (1)
and edge duplicate-freeness, and afterwards every species of the processed
list is a core or edge species. -/
theorem foldl_addMissing_inv (specs : List Species) :
    ∀ m : CoreEdgeReactionModel,
      coreEdgeDisjoint m → m.edge.species.Nodup →
      coreEdgeDisjoint (specs.foldl (fun mm spec =>
          if spec ∈ mm.edge.species ∨ spec ∈ mm.core.species then mm
          else addSpeciesToEdge mm spec) m) ∧
      (specs.foldl (fun mm spec =>
          if spec ∈ mm.edge.species ∨ spec ∈ mm.core.species then mm
          else addSpeciesToEdge mm spec) m).edge.species.Nodup ∧
      ∀ v ∈ specs,
        v ∈ (specs.foldl (fun mm spec =>
          if spec ∈ mm.edge.species ∨ spec ∈ mm.core.species then mm
          else addSpeciesToEdge mm spec) m).core.species ∨
        v ∈ (specs.foldl (fun mm spec =>
          if spec ∈ mm.edge.species ∨ spec ∈ mm.core.species then mm
          else addSpeciesToEdge mm spec) m).edge.species := by
  induction specs with
  | nil =>
    intro m hd hn
    exact ⟨hd, hn, fun v hv => absurd hv (List.not_mem_nil v)⟩
  | cons sp specs ih =>
    intro m hd hn
    simp only [List.foldl_cons]
    by_cases hc : sp ∈ m.edge.species ∨ sp ∈ m.core.species
    · rw [if_pos hc]
      obtain ⟨d, n, k⟩ := ih m hd hn
      refine ⟨d, n, ?_⟩
      intro v hv
      rcases List.mem_cons.mp hv with rfl | hv
      · obtain ⟨hcs, ⟨l, hes⟩, _⟩ := foldl_addMissing_fields specs m
        rcases hc with h | h
        · rw [hes]
          exact Or.inr (List.mem_append_left _ h)
        · rw [hcs]
          exact Or.inl h
      · exact k v hv
    · rw [if_neg hc]
      push_neg at hc
      have hd1 : coreEdgeDisjoint (addSpeciesToEdge m sp) := by
        intro v hv hmem
        rcases List.mem_append.mp hmem with h | h
        · exact hd v hv h
        · rw [List.mem_singleton] at h
          subst h
          exact hc.2 hv
      have hn1 : (addSpeciesToEdge m sp).edge.species.Nodup := by
        show (m.edge.species ++ [sp]).Nodup
        rw [List.nodup_append]
        refine ⟨hn, List.nodup_singleton sp, ?_⟩
        intro a ha hmem
        rw [List.mem_singleton] at hmem
        subst hmem
        exact hc.1 ha
      obtain ⟨d, n, k⟩ := ih (addSpeciesToEdge m sp) hd1 hn1
      refine ⟨d, n, ?_⟩
      intro v hv
      rcases List.mem_cons.mp hv with rfl | hv
      · obtain ⟨_, ⟨l, hes⟩, _⟩ := foldl_addMissing_fields specs (addSpeciesToEdge m v)
        rw [hes]
        refine Or.inr (List.mem_append_left _ ?_)
        show v ∈ m.edge.species ++ [v]
        exact List.mem_append_right _ (List.mem_singleton_self v)
      · exact k v hv

/-- One body iteration of the `initialize` reaction loop preserves invariants
(1) and (4) and edge duplicate-freeness: every species the appended reaction
references has been inserted before the reaction is. -/
theorem initBody_inv (m : CoreEdgeReactionModel) (rxn : Reaction)
    (hd : coreEdgeDisjoint m) (hn : m.edge.species.Nodup) (hk : speciesKnown m) :
    coreEdgeDisjoint (addReactionToEdge ((rxn.reactants ++ rxn.products).foldl
        (fun a spec => if spec ∈ a.edge.species ∨ spec ∈ a.core.species then a
          else addSpeciesToEdge a spec) m) rxn) ∧
    (addReactionToEdge ((rxn.reactants ++ rxn.products).foldl
        (fun a spec => if spec ∈ a.edge.species ∨ spec ∈ a.core.species then a
          else addSpeciesToEdge a spec) m) rxn).edge.species.Nodup ∧
    speciesKnown (addReactionToEdge ((rxn.reactants ++ rxn.products).foldl
        (fun a spec => if spec ∈ a.edge.species ∨ spec ∈ a.core.species then a
          else addSpeciesToEdge a spec) m) rxn) := by
  obtain ⟨d, n, k⟩ := foldl_addMissing_inv (rxn.reactants ++ rxn.products) m hd hn
  obtain ⟨hcs, ⟨l, hes⟩, her⟩ := foldl_addMissing_fields (rxn.reactants ++ rxn.products) m
  refine ⟨d, n, ?_⟩
  intro r hr v hv
  show v ∈ ((rxn.reactants ++ rxn.products).foldl _ m).core.species ∨
    v ∈ ((rxn.reactants ++ rxn.products).foldl _ m).edge.species
  have hr2 : r ∈ ((rxn.reactants ++ rxn.products).foldl (fun a spec =>
      if spec ∈ a.edge.species ∨ spec ∈ a.core.species then a
      else addSpeciesToEdge a spec) m).core.reactions ++
      (((rxn.reactants ++ rxn.products).foldl (fun a spec =>
      if spec ∈ a.edge.species ∨ spec ∈ a.core.species then a
      else addSpeciesToEdge a spec) m).edge.reactions ++ [rxn]) := hr
  rw [congrArg ReactionModel.reactions hcs, her] at hr2
  rcases List.mem_append.mp hr2 with h | h
  · have := hk r (List.mem_append_left _ h) v hv
    rcases this with hh | hh
    · rw [congrArg ReactionModel.species hcs]
      exact Or.inl hh
    · rw [hes]
      exact Or.inr (List.mem_append_left _ hh)
  · rcases List.mem_append.mp h with h | h
    · have := hk r (List.mem_append_right _ h) v hv
      rcases this with hh | hh
      · rw [congrArg ReactionModel.species hcs]
        exact Or.inl hh
      · rw [hes]
        exact Or.inr (List.mem_append_left _ hh)
    · rw [List.mem_singleton] at h
      subst h
      exact k v hv

/-- Folding the `initialize` reaction-loop body preserves invariants (1) and
(4) and edge duplicate-freeness. -/
theorem foldl_initBody_inv (rs : List Reaction) :
    ∀ m : CoreEdgeReactionModel,
      coreEdgeDisjoint m → m.edge.species.Nodup → speciesKnown m →
      coreEdgeDisjoint (rs.foldl (fun mm rxn => addReactionToEdge
          ((rxn.reactants ++ rxn.products).foldl
            (fun a spec => if spec ∈ a.edge.species ∨ spec ∈ a.core.species then a
              else addSpeciesToEdge a spec) mm) rxn) m) ∧
      (rs.foldl (fun mm rxn => addReactionToEdge
          ((rxn.reactants ++ rxn.products).foldl
            (fun a spec => if spec ∈ a.edge.species ∨ spec ∈ a.core.species then a
              else addSpeciesToEdge a spec) mm) rxn) m).edge.species.Nodup ∧
      speciesKnown (rs.foldl (fun mm rxn => addReactionToEdge
          ((rxn.reactants ++ rxn.products).foldl
            (fun a spec => if spec ∈ a.edge.species ∨ spec ∈ a.core.species then a
              else addSpeciesToEdge a spec) mm) rxn) m) := by
  induction rs with
  | nil => exact fun m hd hn hk => ⟨hd, hn, hk⟩
  | cons r rs ih =>
    intro m hd hn hk
    simp only [List.foldl_cons]
    obtain ⟨d, n, k⟩ := initBody_inv m r hd hn hk
    exact ih _ d n k

/-- `initStep` preserves invariants (1) and (4) and edge duplicate-freeness. -/
theorem initStep_inv (getReactions : List Species → List Reaction)
    (reactive : Species → Bool) (m : CoreEdgeReactionModel) (species1 : Species)
    (hd : coreEdgeDisjoint m) (hn : m.edge.species.Nodup) (hk : speciesKnown m) :
    coreEdgeDisjoint (initStep getReactions reactive m species1) ∧
    (initStep getReactions reactive m species1).edge.species.Nodup ∧
    speciesKnown (initStep getReactions reactive m species1) := by
  obtain ⟨rs, hrs⟩ : ∃ rs : List Reaction, initStep getReactions reactive m species1
      = List.foldl (fun mm rxn => addReactionToEdge
          ((rxn.reactants ++ rxn.products).foldl
            (fun a spec => if spec ∈ a.edge.species ∨ spec ∈ a.core.species then a
              else addSpeciesToEdge a spec) mm) rxn)
          (addSpeciesToCore m species1) rs := ⟨_, rfl⟩
  rw [hrs]
  exact foldl_initBody_inv rs (addSpeciesToCore m species1)
    (addSpeciesToCore_disjoint m species1 hd hn)
    (addSpeciesToCore_nodup_edge m species1 hn)
    (addSpeciesToCore_known m species1 hk)

/-- C4 (counterexample).  Two failures of the claimed invariants after
`initialize` from the empty model.  First, invariant (3)'s converse: with
seeds `[A, B]` and a provider returning the isomerisation `B -> A` for `B`,
that reaction stays in `edge.reactions` although both its species are core
seeds — `initialize` adds every discovered reaction to the edge, and the
promotion cascade of `addSpeciesToCore` fires only for species that were
previously edge species.  Second, invariant (2): with a deterministic provider
returning the same reaction `A -> B` for the queries on `A` and on `B`, the
reaction is promoted to the core when `B` becomes a seed and then appended to
the edge again, ending in both `core.reactions` and `edge.reactions`. -/
theorem initModel_core_reaction_left_in_edge :
    ((⟨7, [1], [0]⟩ : Reaction)
      ∈ (initModel provC4 (fun _ => true) emptyModel [0, 1]).edge.reactions ∧
     allCore (initModel provC4 (fun _ => true) emptyModel [0, 1]).core.species
       ⟨7, [1], [0]⟩ = true ∧
     (⟨7, [1], [0]⟩ : Reaction)
       ∉ (initModel provC4 (fun _ => true) emptyModel [0, 1]).core.reactions) ∧
    ((⟨9, [0], [1]⟩ : Reaction)
      ∈ (initModel provC4b (fun _ => true) emptyModel [0, 1]).core.reactions ∧
     (⟨9, [0], [1]⟩ : Reaction)
      ∈ (initModel provC4b (fun _ => true) emptyModel [0, 1]).edge.reactions) := by
  exact ⟨⟨by decide, by decide, by decide⟩, by decide, by decide⟩

/-- C4 (amended).  After `initialize` from any state satisfying them (in
particular the empty model), invariant (1) (`core.species` and `edge.species`
disjoint), the edge species' duplicate-freeness, invariant (4) (every species
referenced by a core or edge reaction is a core or edge species), and the
forward half of invariant (3) (every core reaction references only core
species) all hold.  Invariant (3)'s converse and invariant (2) fail (see the
counterexample): a reaction all of whose reactants and products are core
species may remain in `edge.reactions`, and a reaction returned by two
provider queries may end in both reaction lists. -/
theorem initModel_invariants (getReactions : List Species → List Reaction)
    (reactive : Species → Bool) (seeds : List Species) (m : CoreEdgeReactionModel)
    (hd : coreEdgeDisjoint m) (hn : m.edge.species.Nodup)
    (hk : speciesKnown m) (hc : coreReactionsAllCore m) :
    coreEdgeDisjoint (initModel getReactions reactive m seeds) ∧
    (initModel getReactions reactive m seeds).edge.species.Nodup ∧
    speciesKnown (initModel getReactions reactive m seeds) ∧
    coreReactionsAllCore (initModel getReactions reactive m seeds) := by
  induction seeds generalizing m with
  | nil => exact ⟨hd, hn, hk, hc⟩
  | cons s seeds ih =>
    obtain ⟨d, n, k⟩ := initStep_inv getReactions reactive m s hd hn hk
    exact ih (initStep getReactions reactive m s) d n k
      (initStep_allCore getReactions reactive m s hc)

/-- C4 (amended, witness): on the concrete promotion-through-the-edge seed
scenario, the amended invariants hold after initialisation from the empty
model, and the promoted core reaction is concretely present. -/
theorem initModel_invariants_witness :
    coreEdgeDisjoint (initModel provC4w (fun _ => true) emptyModel [0, 1]) ∧
    speciesKnown (initModel provC4w (fun _ => true) emptyModel [0, 1]) ∧
    coreReactionsAllCore (initModel provC4w (fun _ => true) emptyModel [0, 1]) ∧
    (⟨9, [0], [1]⟩ : Reaction)
      ∈ (initModel provC4w (fun _ => true) emptyModel [0, 1]).core.reactions := by
  have h := initModel_invariants provC4w (fun _ => true) [0, 1] emptyModel
    (fun v hv => absurd hv (List.not_mem_nil v)) List.nodup_nil
    (fun r hr => absurd hr (List.not_mem_nil r))
    (fun r hr => absurd hr (List.not_mem_nil r))
  exact ⟨h.1, h.2.2.1, h.2.2.2, by decide⟩

/-! ## Claim theorems: reactor construction, profiles, and the simulate loop -/

/-- C8.  Constructing a `ReactionSystem` (or a `BatchReactor`, which forwards
to it) raises `InvalidReactionSystemException` iff all three of
`temperatureModel`, `pressureModel`, `volumeModel` are non-`None`; with at
most two non-`None` the construction succeeds and stores exactly the given
models, dropping none. -/
theorem reactionSystem_construct_two_dof (t : Option TemperatureModel)
    (p : Option PressureModel) (v : Option VolumeModel)
    (c : Option (List (Species × ℚ))) :
    (t.isSome = true → p.isSome = true → v.isSome = true →
       ReactionSystem.construct t p v c = .error
         ⟨"Attempted to specify temperature, pressure, and volume models; can only specify two of these at a time."⟩ ∧
       BatchReactor.construct t p v c = .error
         ⟨"Attempted to specify temperature, pressure, and volume models; can only specify two of these at a time."⟩) ∧
    (¬(t.isSome = true ∧ p.isSome = true ∧ v.isSome = true) →
       ReactionSystem.construct t p v c = .ok ⟨t, p, v, c.getD []⟩ ∧
       BatchReactor.construct t p v c = .ok ⟨t, p, v, c.getD []⟩) := by
  unfold BatchReactor.construct ReactionSystem.construct
  constructor
  · intro h1 h2 h3
    rw [if_pos ⟨h1, h2, h3⟩]
    exact ⟨rfl, rfl⟩
  · intro h
    rw [if_neg h]
    exact ⟨rfl, rfl⟩

/-- C8 (witness): two models stored exactly; three models rejected. -/
theorem reactionSystem_construct_two_dof_witness :
    ReactionSystem.construct (some {}) (some {}) none none
      = .ok ⟨some {}, some {}, none, []⟩ ∧
    (∃ e, ReactionSystem.construct (some {}) (some {}) (some 0) none = .error e) := by
  refine ⟨((reactionSystem_construct_two_dof (some {}) (some {}) none none).2
    (by simp)).1, ?_⟩
  exact ⟨_, ((reactionSystem_construct_two_dof (some {}) (some {}) (some 0) none).1
    rfl rfl rfl).1⟩

/-- C10.  A profile model whose kind was never set to the constant variant
returns `None` for every time; after `setIsothermal`/`setIsobaric` the stored
value is returned unchanged for every time. -/
theorem profileModels_unset_and_constant :
    (∀ (tm : TemperatureModel) (t : ℚ), tm.type ≠ "isothermal" →
       tm.getTemperature t = none) ∧
    (∀ (tm : TemperatureModel) (temp t : ℚ),
       (tm.setIsothermal temp).getTemperature t = some temp) ∧
    (∀ (pm : PressureModel) (t : ℚ), pm.type ≠ "isobaric" →
       pm.getPressure t = none) ∧
    (∀ (pm : PressureModel) (pr t : ℚ),
       (pm.setIsobaric pr).getPressure t = some pr) := by
  refine ⟨?_, ?_, ?_, ?_⟩
  · intro tm t h
    simp [TemperatureModel.getTemperature, TemperatureModel.isIsothermal, h]
  · intro tm temp t
    simp [TemperatureModel.getTemperature, TemperatureModel.isIsothermal,
      TemperatureModel.setIsothermal]
  · intro pm t h
    simp [PressureModel.getPressure, PressureModel.isIsobaric, h]
  · intro pm pr t
    simp [PressureModel.getPressure, PressureModel.isIsobaric,
      PressureModel.setIsobaric]

/-- C10 (witness): a fresh model returns `none`; a constant model returns the
stored value. -/
theorem profileModels_unset_and_constant_witness :
    ({} : TemperatureModel).getTemperature 5 = none ∧
    (({} : TemperatureModel).setIsothermal 1000).getTemperature 5 = some 1000 ∧
    ({} : PressureModel).getPressure 5 = none ∧
    (({} : PressureModel).setIsobaric 100000).getPressure 5 = some 100000 := by
  refine ⟨profileModels_unset_and_constant.1 {} 5 (by decide),
    profileModels_unset_and_constant.2.1 {} 1000 5,
    profileModels_unset_and_constant.2.2.1 {} 5 (by decide),
    profileModels_unset_and_constant.2.2.2 {} 100000 5⟩

/-- C9.  One iteration of the `simulate` loop, for any loop state with
`t0 < 1`: when the post-span validity check passes and the lead core species'
amount has dropped strictly below 10% of its initial value, the loop returns
`(True, None)` immediately, with no further integration; and the validity
check is applied before the depletion test — an invalid verdict returns
`(False, newSpecies)` even if the lead species is depleted. -/
theorem simulateLoop_depletion_terminates (sqrtQ : ℚ → ℚ)
    (getRate : Reaction → ℚ → ℚ → (Species → ℚ) → ℚ)
    (integ : SimState → ℚ → ℚ → SimState × ℚ) (m : CoreEdgeReactionModel)
    (y0 : SimState) (fuel : ℕ) (t0 tf : ℚ) (y y1 : SimState) (tcur : ℚ)
    (hint : integ y t0 tf = (y1, tcur)) (ht : t0 < 1) :
    (isModelValid sqrtQ (ratesAt getRate m y1) m = some (true, none) →
       leadAmount y1 < 1 / 10 * leadAmount y0 →
       simulateLoop sqrtQ getRate integ m y0 (fuel + 1) t0 tf y = some (true, none)) ∧
    (∀ ns, isModelValid sqrtQ (ratesAt getRate m y1) m = some (false, ns) →
       simulateLoop sqrtQ getRate integ m y0 (fuel + 1) t0 tf y = some (false, ns)) := by
  constructor
  · intro hval hdep
    simp only [simulateLoop]
    rw [if_pos ht, hint]
    simp only [hval]
    rw [if_neg (by simp), if_pos hdep]
  · intro ns hval
    simp only [simulateLoop]
    rw [if_pos ht, hint]
    simp only [hval]
    simp

/-- C9 (witness): a loop state in which the integrator depletes the lead
species and the validity check passes returns `(True, None)` at that step. -/
theorem simulateLoop_depletion_terminates_witness :
    simulateLoop (fun _ => 0) grZero integC9 mC9 ⟨1, 1, 1, [1, 0]⟩ 5 (1 / 2) (1 / 2)
      ⟨1, 1, 1, [1, 0]⟩ = some (true, none) := by
  refine (simulateLoop_depletion_terminates (fun _ => 0) grZero integC9 mC9
    ⟨1, 1, 1, [1, 0]⟩ 4 (1 / 2) (1 / 2) ⟨1, 1, 1, [1, 0]⟩ ⟨1, 1, 1, [0, 10]⟩ 1
    rfl (by norm_num)).1 ?_ ?_
  · norm_num [isModelValid, modelEntries, charFluxBR, modelFlux, reactionList,
      speciesList, pairMax, pmStep, mC9, ratesAt, grZero,
      Reaction.getStoichiometricCoefficient, List.enum, List.enumFrom]
  · norm_num [leadAmount]

end RMG
